import Mathlib

/-!
Shallow embedding of `scripts/generate-stress-jsonl.py`, a one-shot generator
that streams NDJSON object records to stdout.  Pure geometry is modelled over
the rationals (Python floats only perform exact arithmetic on the inputs the
claims quantify over, except for the circle pattern, modelled over the reals),
the pseudo-random source is modelled as the stream of `randint(0, 255)` draws
it produces for a given seed, and the fallible hex-color parser returns an
`Option`.
-/

namespace StressJsonl

/-- Pattern choices of the `--pattern` argument (`snake`, `square`, `ring`, `spiral`). -/
inductive Pattern where
  | snake
  | square
  | ring
  | spiral
deriving DecidableEq

/-- Immutable snapshot of the parsed command line (`parse_args`): count, size,
start-x, start-y, pattern, columns, row-gap, seed. -/
structure RunConfig where
  count : ℤ
  size : ℚ
  start_x : ℚ
  start_y : ℚ
  pattern : Pattern
  columns : ℤ
  row_gap : ℚ
  seed : Option ℤ

/-- One emitted record (the `obj` dict assembled in `main`), with the `props`
payload flattened into the `fill`, `stroke` and `strokeWidth` fields. -/
structure Obj where
  type : String
  kind : String
  x : ℚ
  y : ℚ
  width : ℚ
  height : ℚ
  rotation : ℚ
  z_index : ℕ
  fill : String
  stroke : String
  strokeWidth : ℕ
deriving DecidableEq, Inhabited

/-- Python `range(a, b)`: the integers `a, a+1, ..., b-1`. -/
def intRange (a b : ℤ) : List ℤ :=
  (List.range (b - a).toNat).map (fun (i : ℕ) => a + (i : ℤ))

/-- Python `range(a, b, -1)`: the integers `a, a-1, ..., b+1`. -/
def intRangeDown (a b : ℤ) : List ℤ :=
  (List.range (a - b).toNat).map (fun (i : ℕ) => a - (i : ℤ))

/-- One iteration of the `while` loop of `square_ring_points` at ring value
`ring`: top edge (both corners), right edge (top corner excluded), bottom edge
(right-to-left, bottom-right corner excluded), left edge (both corners
excluded), with `d = ring * step`. -/
def square_ring_ring (step : ℚ) (ring : ℕ) : List (ℚ × ℚ) :=
  ((intRange (-(ring : ℤ)) ((ring : ℤ) + 1)).map (fun (x : ℤ) => ((x : ℚ) * step, -((ring : ℚ) * step))))
    ++ ((intRange (-(ring : ℤ) + 1) ((ring : ℤ) + 1)).map (fun (y : ℤ) => ((ring : ℚ) * step, (y : ℚ) * step)))
    ++ ((intRangeDown ((ring : ℤ) - 1) (-(ring : ℤ) - 1)).map (fun (x : ℤ) => ((x : ℚ) * step, (ring : ℚ) * step)))
    ++ ((intRangeDown ((ring : ℤ) - 1) (-(ring : ℤ))).map (fun (y : ℤ) => (-((ring : ℚ) * step), (y : ℚ) * step)))

/-- Finite unfolding of the infinite generator `square_ring_points`: the single
ring-0 point `(0, 0)` followed by rings `1, ..., nRings` in emission order. -/
def square_ring_points (step : ℚ) (nRings : ℕ) : List (ℚ × ℚ) :=
  ((0 : ℚ), (0 : ℚ)) :: ((List.range nRings).map (fun k => square_ring_ring step (k + 1))).flatten

/-- Python `round(x, 3)`: rounding to 3 decimal places (the half-to-even versus
half-away tie rule is irrelevant to the stated tolerance bounds). -/
noncomputable def round3 (x : ℝ) : ℝ :=
  ((round (x * 1000) : ℤ) : ℝ) / 1000

/-- One iteration of the `while` loop of `circle_ring_points` at ring value
`ring`: `max (8 * ring) 8` samples evenly spaced on the circle of radius
`ring * step`, each coordinate rounded to 3 decimals. -/
noncomputable def circle_ring_ring (step : ℝ) (ring : ℕ) : List (ℝ × ℝ) :=
  (List.range (max (8 * ring) 8)).map (fun (i : ℕ) =>
    let theta : ℝ := (2 * Real.pi * (i : ℝ)) / ((max (8 * ring) 8 : ℕ) : ℝ)
    (round3 ((ring : ℝ) * step * Real.cos theta), round3 ((ring : ℝ) * step * Real.sin theta)))

/-- Finite unfolding of the infinite generator `circle_ring_points`: the single
ring-0 point `(0, 0)` followed by rings `1, ..., nRings` in emission order. -/
noncomputable def circle_ring_points (step : ℝ) (nRings : ℕ) : List (ℝ × ℝ) :=
  ((0 : ℝ), (0 : ℝ)) :: ((List.range nRings).map (fun k => circle_ring_ring step (k + 1))).flatten

/-- One iteration of the `while` loop of `snake_points` at row value `row`:
even rows traverse columns left to right, odd rows right to left, at
`y = row * rowStep`. -/
def snake_row (step : ℚ) (columns : ℕ) (rowStep : ℚ) (row : ℕ) : List (ℚ × ℚ) :=
  if row % 2 = 0 then
    (List.range columns).map (fun (col : ℕ) => ((col : ℚ) * step, (row : ℚ) * rowStep))
  else
    ((List.range columns).reverse).map (fun (col : ℕ) => ((col : ℚ) * step, (row : ℚ) * rowStep))

/-- Finite unfolding of the infinite generator `snake_points` over its first
`nRows` rows; `columns` is coerced to a minimum of 1 and the row pitch is
`step + row_gap`, as in the source. -/
def snake_points (step : ℚ) (columns0 : ℤ) (row_gap : ℚ) (nRows : ℕ) : List (ℚ × ℚ) :=
  ((List.range nRows).map (fun row => snake_row step (max columns0 1).toNat (step + row_gap) row)).flatten

/-- Element `n` (0-based) of the infinite snake stream, read off from a
sufficiently long unfolding (each row holds at least one point, so `n + 1`
rows always suffice). -/
def snakeNth (step : ℚ) (columns0 : ℤ) (row_gap : ℚ) (n : ℕ) : ℚ × ℚ :=
  (snake_points step columns0 row_gap (n + 1)).getD n ((0 : ℚ), (0 : ℚ))

/-- Points yielded by one straight leg of the spiral walk: starting from `p`
(exclusive), `len` unit steps in direction `d`, yielding each intermediate
position, exactly like the `for _ in range(leg_len)` loops of `spiral_points`. -/
def spiralLegPoints (p : ℤ × ℤ) (d : ℤ × ℤ) (len : ℕ) : List (ℤ × ℤ) :=
  (List.range len).map (fun (i : ℕ) => (p.1 + d.1 * ((i : ℤ) + 1), p.2 + d.2 * ((i : ℤ) + 1)))

/-- Finite unfolding of the `while` loop of `spiral_points` over `k` full
iterations, starting from position `(x, y)` with current leg length `legLen`.
One iteration moves right `legLen`, up `legLen`, left `legLen + 1`, down
`legLen + 1`, leaving the walk at `(x - 1, y - 1)` with leg length
`legLen + 2`, as in the source. -/
def spiral_rounds (x y : ℤ) (legLen : ℕ) : ℕ → List (ℤ × ℤ)
  | 0 => []
  | k + 1 =>
      spiralLegPoints (x, y) (1, 0) legLen
        ++ spiralLegPoints (x + legLen, y) (0, 1) legLen
        ++ spiralLegPoints (x + legLen, y + legLen) (-1, 0) (legLen + 1)
        ++ spiralLegPoints (x + legLen - ((legLen : ℤ) + 1), y + legLen) (0, -1) (legLen + 1)
        ++ spiral_rounds (x - 1) (y - 1) (legLen + 2) k

/-- Finite unfolding of the infinite generator `spiral_points`: the initial
`(0, 0)` followed by `k` full `while` iterations, each lattice coordinate
scaled by `step` exactly as yielded by the source. -/
def spiral_points (step : ℚ) (k : ℕ) : List (ℚ × ℚ) :=
  (((0 : ℤ), (0 : ℤ)) :: spiral_rounds 0 0 1 k).map (fun (p : ℤ × ℤ) => ((p.1 : ℚ) * step, (p.2 : ℚ) * step))

/-- Direction of the 0-based leg `j` of the lattice path described by the
claim: right, up, left, down, cycling with period 4. -/
def spiralSpecDir (j : ℕ) : ℤ × ℤ :=
  if j % 4 = 0 then (1, 0)
  else if j % 4 = 1 then (0, 1)
  else if j % 4 = 2 then (-1, 0)
  else (0, -1)

/-- Length of the 0-based leg `j` of the claimed lattice path: the leg length
starts at 1 and increases by 1 after every two legs, so leg `j` has length
`j / 2 + 1`. -/
def spiralSpecLen (j : ℕ) : ℕ := j / 2 + 1

/-- Position on the claimed lattice path after `j` complete legs, starting
from the origin. -/
def spiralSpecPos : ℕ → ℤ × ℤ
  | 0 => ((0 : ℤ), (0 : ℤ))
  | j + 1 =>
      ((spiralSpecPos j).1 + (spiralSpecDir j).1 * (spiralSpecLen j : ℤ),
       (spiralSpecPos j).2 + (spiralSpecDir j).2 * (spiralSpecLen j : ℤ))

/-- Points of legs `j, j+1, ..., j+m-1` of the claimed lattice path, each leg
yielding its intermediate positions one unit step at a time. -/
def spiralSpecLegs (j : ℕ) : ℕ → List (ℤ × ℤ)
  | 0 => []
  | m + 1 =>
      spiralLegPoints (spiralSpecPos j) (spiralSpecDir j) (spiralSpecLen j)
        ++ spiralSpecLegs (j + 1) m

/-- The lattice path stated by the claim: `(0,0)` followed by the first `m`
legs of the alternating right/up/left/down walk whose leg length increases
every two legs. -/
def spiralSpecPath (m : ℕ) : List (ℤ × ℤ) :=
  ((0 : ℤ), (0 : ℤ)) :: spiralSpecLegs 0 m

/-- Lowercase hexadecimal digit character, as produced by Python `%x`
formatting. -/
def hexChar (n : ℕ) : Char :=
  if n < 10 then Char.ofNat (48 + n) else Char.ofNat (87 + n)

/-- Two-digit lowercase hexadecimal rendering of a byte, as produced by the
`f"{v:02x}"` format specifiers. -/
def byteHex (n : ℕ) : List Char :=
  [hexChar (n / 16 % 16), hexChar (n % 16)]

/-- Value of one hexadecimal digit character as accepted by Python
`int(x, 16)`: `0-9`, `a-f` and `A-F` (the additional sign, whitespace,
underscore and `0x` forms Python tolerates never arise from well-formed color
strings). -/
def hexCharVal (c : Char) : Option ℕ :=
  if 48 ≤ c.toNat ∧ c.toNat ≤ 57 then some (c.toNat - 48)
  else if 97 ≤ c.toNat ∧ c.toNat ≤ 102 then some (c.toNat - 87)
  else if 65 ≤ c.toNat ∧ c.toNat ≤ 70 then some (c.toNat - 55)
  else none

/-- Python `int(s, 16)` on a digit string: fails on the empty string,
otherwise accumulates hexadecimal digits most-significant first. -/
def hexVal (s : List Char) : Option ℕ :=
  match s with
  | [] => none
  | _ => List.foldlM (fun acc c => (hexCharVal c).map (fun v => 16 * acc + v)) 0 s

/-- The three channel parses of `darken_hex`: `int(color[0:2], 16)`,
`int(color[2:4], 16)` and `int(color[4:6], 16)` on the `#`-stripped string. -/
def parseChannels (s : List Char) : Option (ℕ × ℕ × ℕ) := do
  let r ← hexVal (s.take 2)
  let g ← hexVal ((s.drop 2).take 2)
  let b ← hexVal ((s.drop 4).take 2)
  pure (r, g, b)

/-- Python `int()` applied to a real value: truncation toward zero. -/
def pyInt (q : ℚ) : ℤ :=
  if q < 0 then ⌈q⌉ else ⌊q⌋

/-- One channel of `darken_hex`: `max(0, min(255, int(c * factor)))`. -/
def darkChannel (c : ℕ) (factor : ℚ) : ℕ :=
  (max 0 (min 255 (pyInt ((c : ℚ) * factor)))).toNat

/-- The `f"#{r:02x}{g:02x}{b:02x}"` string of `random_hex_color`, with the
run's pseudo-random source modelled by the three bytes it draws. -/
def random_hex_color (r g b : Fin 256) : String :=
  String.mk ('#' :: (byteHex (r : ℕ) ++ byteHex (g : ℕ) ++ byteHex (b : ℕ)))

/-- The string `darken_hex` re-encodes after darkening the three parsed
channels by `factor`. -/
def darkenedColor (r g b : ℕ) (factor : ℚ) : String :=
  String.mk ('#' :: (byteHex (darkChannel r factor) ++ byteHex (darkChannel g factor)
    ++ byteHex (darkChannel b factor)))

/-- Translation of `darken_hex`: strip leading `#`, parse the three byte
channels (a Python `ValueError` becomes `none`), scale each by `factor` with
truncation and clamping, and re-encode as `#rrggbb`. -/
def darken_hex (color : String) (factor : ℚ) : Option String :=
  match parseChannels (color.data.dropWhile (fun c => c = '#')) with
  | none => none
  | some (r, g, b) => some (darkenedColor r g b factor)

/-- One iteration of the emission loop of `main` at index `index`: pull the
next point, draw the fill color (three sequential `randint(0, 255)` draws from
the stream `draw`), darken it for the stroke, and assemble the record.  The
darkening failure case (impossible on `random_hex_color` output) propagates as
`none`. -/
def emitObject (cfg : RunConfig) (points : ℕ → ℚ × ℚ) (draw : ℕ → Fin 256) (index : ℕ) :
    Option Obj :=
  let p := points index
  let fill := random_hex_color (draw (3 * index)) (draw (3 * index + 1)) (draw (3 * index + 2))
  (darken_hex fill (72 / 100)).map (fun border =>
    { type := "object"
      kind := if index % 2 = 0 then "rectangle" else "ellipse"
      x := cfg.start_x + p.1
      y := cfg.start_y + p.2
      width := cfg.size
      height := cfg.size
      rotation := 0
      z_index := index
      fill := fill
      stroke := border
      strokeWidth := 1 })

/-- Translation of `main`: return success with no records when `count <= 0`,
fail with the usage error when `size <= 0`, otherwise emit one record per
index in `range(count)`.  `points` is the pattern stream selected from
`cfg.pattern` (the generators are modelled separately and the theorems
quantify over the stream or instantiate the selected one); `draw` is the
seeded pseudo-random byte stream. -/
def main (cfg : RunConfig) (points : ℕ → ℚ × ℚ) (draw : ℕ → Fin 256) :
    Except String (List Obj) :=
  if cfg.count ≤ 0 then Except.ok []
  else if cfg.size ≤ 0 then Except.error "--size must be > 0"
  else
    match (List.range cfg.count.toNat).mapM (emitObject cfg points draw) with
    | some objs => Except.ok objs
    | none => Except.error "ValueError"

/-- The record `main` emits at index `index` (the darkening step written in
its always-successful closed form). -/
def objAt (cfg : RunConfig) (points : ℕ → ℚ × ℚ) (draw : ℕ → Fin 256) (index : ℕ) : Obj :=
  { type := "object"
    kind := if index % 2 = 0 then "rectangle" else "ellipse"
    x := cfg.start_x + (points index).1
    y := cfg.start_y + (points index).2
    width := cfg.size
    height := cfg.size
    rotation := 0
    z_index := index
    fill := random_hex_color (draw (3 * index)) (draw (3 * index + 1)) (draw (3 * index + 2))
    stroke := darkenedColor ((draw (3 * index)) : ℕ) ((draw (3 * index + 1)) : ℕ)
      ((draw (3 * index + 2)) : ℕ) (72 / 100)
    strokeWidth := 1 }

/-- Constant all-zeros point stream, used to instantiate theorems at concrete
inputs. -/
def pts0 : ℕ → ℚ × ℚ := fun _ => ((0 : ℚ), (0 : ℚ))

/-- Constant all-zeros draw stream, used to instantiate theorems at concrete
inputs. -/
def draw0 : ℕ → Fin 256 := fun _ => 0

/-- Configuration with `count = 1` and `size = 0`, all other options at their
defaults. -/
def cfgC1 : RunConfig :=
  { count := 1, size := 0, start_x := 0, start_y := 0, pattern := Pattern.snake,
    columns := 40, row_gap := 10, seed := none }

/-- Configuration with `count = 0` and `size = -1`, all other options at their
defaults. -/
def cfgC2 : RunConfig :=
  { count := 0, size := -1, start_x := 0, start_y := 0, pattern := Pattern.snake,
    columns := 40, row_gap := 10, seed := none }

/-- Configuration `count = 5`, `pattern = snake`, `size = 10`, `columns = 2`,
all other options at their defaults (in particular `row_gap = 10`). -/
def cfgC3 : RunConfig :=
  { count := 5, size := 10, start_x := 0, start_y := 0, pattern := Pattern.snake,
    columns := 2, row_gap := 10, seed := none }

/-- The snake stream selected by `main` for `cfgC3`: `snake_points(size,
columns, row_gap)` with `size = 10`, `columns = 2`, `row_gap = 10`. -/
def ptsC3 : ℕ → ℚ × ℚ := snakeNth 10 2 10

/-- A small valid configuration used to instantiate theorems at concrete
inputs. -/
def cfgW : RunConfig :=
  { count := 3, size := 10, start_x := 1, start_y := 2, pattern := Pattern.square,
    columns := 40, row_gap := 10, seed := some 7 }

/-- First of two distinct configurations sharing only the count, used to
instantiate the color-reproducibility theorem. -/
def cfgC8a : RunConfig :=
  { count := 2, size := 5, start_x := 0, start_y := 0, pattern := Pattern.snake,
    columns := 40, row_gap := 10, seed := some 42 }

/-- Second of two distinct configurations sharing only the count, used to
instantiate the color-reproducibility theorem. -/
def cfgC8b : RunConfig :=
  { count := 2, size := 3, start_x := 9, start_y := -4, pattern := Pattern.spiral,
    columns := 2, row_gap := 0, seed := some 42 }

lemma hexCharVal_hexChar : ∀ k : ℕ, k < 16 → hexCharVal (hexChar k) = some k := by decide

lemma hexChar_ne_hash : ∀ k : ℕ, k < 16 → hexChar k ≠ '#' := by decide

lemma byteHex_head_lt (a : ℕ) : a / 16 % 16 < 16 := Nat.mod_lt _ (by norm_num)

lemma hexVal_pair {h l : ℕ} (hh : h < 16) (hl : l < 16) :
    hexVal [hexChar h, hexChar l] = some (16 * h + l) := by
  simp [hexVal, List.foldlM, hexCharVal_hexChar h hh, hexCharVal_hexChar l hl]

lemma parseChannels_bytes {a b c : ℕ} (ha : a < 256) (hb : b < 256) (hc : c < 256) :
    parseChannels (byteHex a ++ byteHex b ++ byteHex c) = some (a, b, c) := by
  have h1 : byteHex a ++ byteHex b ++ byteHex c
      = [hexChar (a / 16 % 16), hexChar (a % 16), hexChar (b / 16 % 16), hexChar (b % 16),
         hexChar (c / 16 % 16), hexChar (c % 16)] := by
    simp [byteHex]
  rw [h1]
  have e1 := hexVal_pair (byteHex_head_lt a) (Nat.mod_lt a (by norm_num) : a % 16 < 16)
  have e2 := hexVal_pair (byteHex_head_lt b) (Nat.mod_lt b (by norm_num) : b % 16 < 16)
  have e3 := hexVal_pair (byteHex_head_lt c) (Nat.mod_lt c (by norm_num) : c % 16 < 16)
  simp only [parseChannels, List.take, List.drop, e1, e2, e3, Option.bind_eq_bind,
    Option.some_bind, Option.pure_def]
  have : ∀ v : ℕ, v < 256 → 16 * (v / 16 % 16) + v % 16 = v := by omega
  rw [this a ha, this b hb, this c hc]

lemma dropWhile_hash_mk (a b c : ℕ) :
    (String.mk ('#' :: (byteHex a ++ byteHex b ++ byteHex c))).data.dropWhile
        (fun ch => ch = '#')
      = byteHex a ++ byteHex b ++ byteHex c := by
  have hne : ¬ hexChar (a / 16 % 16) = '#' := hexChar_ne_hash _ (byteHex_head_lt a)
  simp [byteHex, List.dropWhile, hne]

lemma darken_hex_random (r g b : Fin 256) (f : ℚ) :
    darken_hex (random_hex_color r g b) f
      = some (darkenedColor (r : ℕ) (g : ℕ) (b : ℕ) f) := by
  unfold darken_hex random_hex_color
  rw [dropWhile_hash_mk, parseChannels_bytes r.isLt g.isLt b.isLt]

lemma emitObject_eq (cfg : RunConfig) (points : ℕ → ℚ × ℚ) (draw : ℕ → Fin 256) (index : ℕ) :
    emitObject cfg points draw index = some (objAt cfg points draw index) := by
  simp only [emitObject, objAt, darken_hex_random, Option.map_some']

lemma mapM_emitObject (cfg : RunConfig) (points : ℕ → ℚ × ℚ) (draw : ℕ → Fin 256)
    (l : List ℕ) :
    l.mapM (emitObject cfg points draw) = some (l.map (objAt cfg points draw)) := by
  induction l with
  | nil => rfl
  | cons a t ih =>
      rw [List.mapM_cons, emitObject_eq]
      simp only [Option.bind_eq_bind, Option.some_bind, Option.pure_def]
      rw [ih]
      rfl

lemma main_ok (cfg : RunConfig) (points : ℕ → ℚ × ℚ) (draw : ℕ → Fin 256)
    (h : 0 < cfg.size ∨ cfg.count ≤ 0) :
    main cfg points draw
      = Except.ok ((List.range cfg.count.toNat).map (objAt cfg points draw)) := by
  unfold main
  by_cases hc : cfg.count ≤ 0
  · rw [if_pos hc, Int.toNat_of_nonpos hc]
    rfl
  · have hs : ¬ cfg.size ≤ 0 := by
      rcases h with h | h
      · exact not_le.mpr h
      · exact absurd h hc
    rw [if_neg hc, if_neg hs, mapM_emitObject]

lemma snakeC3_coords (draw : ℕ → Fin 256) :
    ((List.range cfgC3.count.toNat).map (objAt cfgC3 ptsC3 draw)).map (fun o => (o.x, o.y))
      = [((0 : ℚ), (0 : ℚ)), (10, 0), (10, 20), (0, 20), (0, 40)] := by
  rw [List.map_map]
  show (List.range 5).map (fun i => ((0 : ℚ) + (ptsC3 i).1, (0 : ℚ) + (ptsC3 i).2)) = _
  norm_num [List.range_succ, ptsC3, snakeNth, snake_points, snake_row, List.getD,
    show Int.toNat 2 = 2 from rfl]

/-- C1, counterexample: the claim quantifies over every configuration, but at
count = 1 and size = 0 the run fails with the usage error and emits no record
instead of max(1, 0) = 1 records with success. -/
theorem emitted_records_claim_cex :
    main cfgC1 pts0 draw0 = Except.error "--size must be > 0" ∧
      ¬ ∃ objs, main cfgC1 pts0 draw0 = Except.ok objs := by
  refine ⟨rfl, ?_⟩
  rintro ⟨objs, h⟩
  rw [show main cfgC1 pts0 draw0 = Except.error "--size must be > 0" from rfl] at h
  exact Except.noConfusion h

/-- C1, amended: for every configuration that does not hit the size usage
error (size > 0, or count <= 0 which returns before the size check), the run
succeeds and emits exactly max(count, 0) records, zero records when
count <= 0, and their z_index fields form exactly the integer range
[0, count) in emission order. -/
theorem emitted_records_count_and_zindex (cfg : RunConfig) (points : ℕ → ℚ × ℚ)
    (draw : ℕ → Fin 256) (h : 0 < cfg.size ∨ cfg.count ≤ 0) :
    ∃ objs, main cfg points draw = Except.ok objs ∧
      ((objs.length : ℤ) = max cfg.count 0) ∧
      (cfg.count ≤ 0 → objs = []) ∧
      objs.map (fun o => o.z_index) = List.range cfg.count.toNat := by
  refine ⟨_, main_ok cfg points draw h, ?_, ?_, ?_⟩
  · rw [List.length_map, List.length_range]
    exact_mod_cast Int.toNat_eq_max cfg.count
  · intro hc
    rw [Int.toNat_of_nonpos hc]
    rfl
  · rw [List.map_map]
    have hfun : (fun o => o.z_index) ∘ objAt cfg points draw = fun i : ℕ => i := rfl
    rw [hfun, show (fun i : ℕ => i) = id from rfl, List.map_id]

/-- C1, witness: the amended theorem instantiated at a concrete valid
configuration with count = 3. -/
theorem emitted_records_count_and_zindex_witness :
    ∃ objs, main cfgW pts0 draw0 = Except.ok objs ∧
      ((objs.length : ℤ) = max cfgW.count 0) ∧
      (cfgW.count ≤ 0 → objs = []) ∧
      objs.map (fun o => o.z_index) = List.range cfgW.count.toNat :=
  emitted_records_count_and_zindex cfgW pts0 draw0 (Or.inl (by decide))

/-- C2, counterexample: at size = -1 and count = 0 the run returns success
with no output, not a usage error, because the count check precedes the size
check. -/
theorem size_nonpositive_claim_cex :
    main cfgC2 pts0 draw0 = Except.ok [] ∧
      ¬ ∃ e, main cfgC2 pts0 draw0 = Except.error e := by
  refine ⟨rfl, ?_⟩
  rintro ⟨e, h⟩
  rw [show main cfgC2 pts0 draw0 = Except.ok [] from rfl] at h
  exact Except.noConfusion h

/-- C2, amended: for every configuration with size <= 0 and count > 0, the
run fails immediately with the usage error before producing any output; when
count <= 0 the run instead returns success with no output before the size
check is reached. -/
theorem size_nonpositive_usage_error (cfg : RunConfig) (points : ℕ → ℚ × ℚ)
    (draw : ℕ → Fin 256) (hsize : cfg.size ≤ 0) (hcount : 0 < cfg.count) :
    main cfg points draw = Except.error "--size must be > 0" := by
  unfold main
  rw [if_neg (not_le.mpr hcount), if_pos hsize]

/-- C2, witness: the amended theorem instantiated at count = 1, size = 0. -/
theorem size_nonpositive_usage_error_witness :
    cfgC1.size ≤ 0 ∧ 0 < cfgC1.count ∧
      main cfgC1 pts0 draw0 = Except.error "--size must be > 0" :=
  ⟨by decide, by decide, size_nonpositive_usage_error cfgC1 pts0 draw0 (by decide) (by decide)⟩

/-- C3, counterexample: with count = 5, pattern = snake, size = 10,
columns = 2 and row-gap at its default 10, the emitted points are not the
claimed (0,0),(10,0),(10,10),(0,10),(0,20): the snake row pitch is
size + row_gap = 20, not 10. -/
theorem snake_end_to_end_claim_cex :
    ¬ ∃ objs, main cfgC3 ptsC3 draw0 = Except.ok objs ∧
        objs.map (fun o => (o.x, o.y))
          = [((0 : ℚ), (0 : ℚ)), (10, 0), (10, 10), (0, 10), (0, 20)] := by
  rintro ⟨objs, hm, hxy⟩
  rw [main_ok cfgC3 ptsC3 draw0 (Or.inl (by decide))] at hm
  injection hm with hm'
  subst hm'
  rw [snakeC3_coords draw0] at hxy
  norm_num at hxy

/-- C3, amended: with count = 5, pattern = snake, size = 10, columns = 2 and
all other options at their defaults (row-gap 10, so the row pitch is 20), the
run emits exactly the points (0,0),(10,0),(10,20),(0,20),(0,40) in that order,
with z_index 0..4 and kinds rectangle, ellipse, rectangle, ellipse,
rectangle. -/
theorem snake_end_to_end (draw : ℕ → Fin 256) :
    ∃ objs, main cfgC3 ptsC3 draw = Except.ok objs ∧
      objs.map (fun o => (o.x, o.y))
        = [((0 : ℚ), (0 : ℚ)), (10, 0), (10, 20), (0, 20), (0, 40)] ∧
      objs.map (fun o => o.z_index) = [0, 1, 2, 3, 4] ∧
      objs.map (fun o => o.kind)
        = ["rectangle", "ellipse", "rectangle", "ellipse", "rectangle"] := by
  refine ⟨_, main_ok cfgC3 ptsC3 draw (Or.inl (by decide)), ?_, ?_, ?_⟩
  · exact snakeC3_coords draw
  · rw [List.map_map]
    rfl
  · rw [List.map_map]
    rfl

/-- C8: the sequence of emitted fill/stroke color pairs is a deterministic
function of the draw stream (itself a function of the seed) and the record
count alone: two successful runs with the same seed and count produce
byte-identical color sequences even if every other configuration field and
the pattern stream differ; in particular two runs with identical RunConfig
do. -/
theorem color_sequence_reproducible (draw : ℕ → Fin 256) (cfg cfg2 : RunConfig)
    (points points2 : ℕ → ℚ × ℚ) (hcount : cfg.count = cfg2.count)
    (h : 0 < cfg.size) (h2 : 0 < cfg2.size) :
    (main cfg points draw).map (List.map (fun o => (o.fill, o.stroke)))
      = (main cfg2 points2 draw).map (List.map (fun o => (o.fill, o.stroke))) := by
  rw [main_ok cfg points draw (Or.inl h), main_ok cfg2 points2 draw (Or.inl h2), hcount]
  simp only [Except.map, List.map_map]
  rfl

/-- C8, witness: two configurations sharing only the seed and the count
(count = 2), with different sizes, origins, patterns and streams, produce the
same color-pair sequence. -/
theorem color_sequence_reproducible_witness :
    cfgC8a.count = cfgC8b.count ∧ 0 < cfgC8a.size ∧ 0 < cfgC8b.size ∧
      (main cfgC8a pts0 draw0).map (List.map (fun o => (o.fill, o.stroke)))
        = (main cfgC8b ptsC3 draw0).map (List.map (fun o => (o.fill, o.stroke))) :=
  ⟨by decide, by decide, by decide,
    color_sequence_reproducible draw0 cfgC8a cfgC8b pts0 ptsC3 (by decide) (by decide) (by decide)⟩

/-- C9: in every successful run, the record emitted at index i has kind
"rectangle" when i is even and "ellipse" when i is odd, for every
configuration, pattern stream and draw stream. -/
theorem kind_alternates_by_index (cfg : RunConfig) (points : ℕ → ℚ × ℚ)
    (draw : ℕ → Fin 256) (h : 0 < cfg.size ∨ cfg.count ≤ 0) :
    ∃ objs, main cfg points draw = Except.ok objs ∧
      objs.map (fun o => o.kind)
        = (List.range cfg.count.toNat).map
            (fun i => if i % 2 = 0 then "rectangle" else "ellipse") := by
  refine ⟨_, main_ok cfg points draw h, ?_⟩
  rw [List.map_map]
  rfl

/-- C9, witness: the alternation theorem instantiated at a concrete valid
configuration with count = 3. -/
theorem kind_alternates_by_index_witness :
    ∃ objs, main cfgW pts0 draw0 = Except.ok objs ∧
      objs.map (fun o => o.kind)
        = (List.range cfgW.count.toNat).map
            (fun i => if i % 2 = 0 then "rectangle" else "ellipse") :=
  kind_alternates_by_index cfgW pts0 draw0 (Or.inl (by decide))

lemma mem_intRange {a b x : ℤ} : x ∈ intRange a b ↔ a ≤ x ∧ x < b := by
  simp only [intRange, List.mem_map, List.mem_range]
  constructor
  · rintro ⟨i, hi, rfl⟩
    omega
  · intro h
    exact ⟨(x - a).toNat, by omega, by omega⟩

lemma mem_intRangeDown {a b x : ℤ} : x ∈ intRangeDown a b ↔ b < x ∧ x ≤ a := by
  simp only [intRangeDown, List.mem_map, List.mem_range]
  constructor
  · rintro ⟨i, hi, rfl⟩
    omega
  · intro h
    exact ⟨(a - x).toNat, by omega, by omega⟩

lemma nodup_intRange (a b : ℤ) : (intRange a b).Nodup :=
  List.Nodup.map (by intro i j hij; dsimp only at hij; omega) (List.nodup_range _)

lemma nodup_intRangeDown (a b : ℤ) : (intRangeDown a b).Nodup :=
  List.Nodup.map (by intro i j hij; dsimp only at hij; omega) (List.nodup_range _)

lemma count_map_inj {α β : Type} [BEq α] [LawfulBEq α] [BEq β] [LawfulBEq β]
    {f : α → β} (hf : Function.Injective f) (L : List α) (x : α) :
    (L.map f).count (f x) = L.count x := by
  induction L with
  | nil => rfl
  | cons a t ih =>
      simp only [List.map_cons, List.count_cons, ih]
      by_cases h : a = x
      · subst h
        simp
      · have hne : ¬ f a = f x := fun hc => h (hf hc)
        simp [h, hne]

lemma count_eq_one_nodup {α : Type} [BEq α] [LawfulBEq α] {L : List α} (hL : L.Nodup)
    {x : α} (hx : x ∈ L) : L.count x = 1 := by
  induction L with
  | nil => cases hx
  | cons a t ih =>
      rw [List.nodup_cons] at hL
      rcases List.mem_cons.mp hx with h | h
      · subst h
        rw [List.count_cons_self, List.count_eq_zero.mpr hL.1]
      · have hax : ¬ a = x := fun hc => hL.1 (hc ▸ h)
        simp only [List.count_cons, ih hL.2 h, beq_iff_eq, hax, if_false]

lemma count_edge_one {f : ℤ → ℚ × ℚ} (hf : Function.Injective f) {L : List ℤ}
    (hL : L.Nodup) {x : ℤ} (hx : x ∈ L) : (L.map f).count (f x) = 1 := by
  rw [count_map_inj hf]
  exact count_eq_one_nodup hL hx

lemma count_edge_zero {f : ℤ → ℚ × ℚ} {L : List ℤ} {c : ℚ × ℚ}
    (h : ∀ x ∈ L, f x ≠ c) : (L.map f).count c = 0 := by
  rw [List.count_eq_zero]
  intro hc
  rw [List.mem_map] at hc
  obtain ⟨x, hx, hfx⟩ := hc
  exact h x hx hfx

lemma mul_step_inj {step : ℚ} (hs : step ≠ 0) {x y : ℤ}
    (h : (x : ℚ) * step = (y : ℚ) * step) : x = y := by
  have h2 := mul_right_cancel₀ hs h
  exact_mod_cast h2

lemma inj_fst {step : ℚ} (hs : step ≠ 0) (c : ℚ) :
    Function.Injective (fun x : ℤ => ((x : ℚ) * step, c)) := by
  intro x y h
  rw [Prod.mk.injEq] at h
  exact mul_step_inj hs h.1

lemma inj_snd {step : ℚ} (hs : step ≠ 0) (c : ℚ) :
    Function.Injective (fun y : ℤ => (c, (y : ℚ) * step)) := by
  intro x y h
  rw [Prod.mk.injEq] at h
  exact mul_step_inj hs h.2

lemma square_ring_mem {step : ℚ} (hstep : 0 < step) {r : ℕ} (hr : 1 ≤ r) {p : ℚ × ℚ}
    (hp : p ∈ square_ring_ring step r) :
    max |p.1| |p.2| = (r : ℚ) * step ∧
      ∃ a b : ℤ, p.1 = (a : ℚ) * step ∧ p.2 = (b : ℚ) * step := by
  have hr0 : 0 < r := by omega
  have hd : (0 : ℚ) < (r : ℚ) * step :=
    mul_pos (by exact_mod_cast hr0) hstep
  have habs : ∀ x : ℤ, -(r : ℤ) ≤ x → x ≤ (r : ℤ) → |(x : ℚ) * step| ≤ (r : ℚ) * step := by
    intro x hx1 hx2
    rw [abs_mul, abs_of_pos hstep]
    have hxq : |(x : ℚ)| ≤ (r : ℚ) := by
      rw [← Int.cast_abs]
      exact_mod_cast abs_le.mpr ⟨hx1, hx2⟩
    exact mul_le_mul_of_nonneg_right hxq hstep.le
  unfold square_ring_ring at hp
  rw [List.mem_append, List.mem_append, List.mem_append] at hp
  rcases hp with ((hA | hB) | hC) | hD
  · rw [List.mem_map] at hA
    obtain ⟨x, hx, rfl⟩ := hA
    rw [mem_intRange] at hx
    refine ⟨?_, x, -(r : ℤ), rfl, by push_cast; ring⟩
    rw [show |(-((r : ℚ) * step))| = (r : ℚ) * step by rw [abs_neg, abs_of_pos hd]]
    exact max_eq_right (habs x (by omega) (by omega))
  · rw [List.mem_map] at hB
    obtain ⟨y, hy, rfl⟩ := hB
    rw [mem_intRange] at hy
    refine ⟨?_, (r : ℤ), y, by push_cast; ring, rfl⟩
    rw [show |((r : ℚ) * step)| = (r : ℚ) * step from abs_of_pos hd]
    exact max_eq_left (habs y (by omega) (by omega))
  · rw [List.mem_map] at hC
    obtain ⟨x, hx, rfl⟩ := hC
    rw [mem_intRangeDown] at hx
    refine ⟨?_, x, (r : ℤ), rfl, by push_cast; ring⟩
    rw [show |((r : ℚ) * step)| = (r : ℚ) * step from abs_of_pos hd]
    exact max_eq_right (habs x (by omega) (by omega))
  · rw [List.mem_map] at hD
    obtain ⟨y, hy, rfl⟩ := hD
    rw [mem_intRangeDown] at hy
    refine ⟨?_, -(r : ℤ), y, by push_cast; ring, rfl⟩
    rw [show |(-((r : ℚ) * step))| = (r : ℚ) * step by rw [abs_neg, abs_of_pos hd]]
    exact max_eq_left (habs y (by omega) (by omega))

lemma square_ring_count_origin (step : ℚ) (hstep : 0 < step) (n : ℕ) :
    (square_ring_points step n).count ((0 : ℚ), (0 : ℚ)) = 1 := by
  unfold square_ring_points
  rw [List.count_cons_self]
  have h0 : ((0 : ℚ), (0 : ℚ)) ∉
      ((List.range n).map (fun k => square_ring_ring step (k + 1))).flatten := by
    intro hmem
    rw [List.mem_flatten] at hmem
    obtain ⟨l, hl, hml⟩ := hmem
    rw [List.mem_map] at hl
    obtain ⟨k, _, rfl⟩ := hl
    have hch := square_ring_mem hstep (by omega : 1 ≤ k + 1) hml
    have hmax : max |((0 : ℚ), (0 : ℚ)).1| |((0 : ℚ), (0 : ℚ)).2| = 0 := by
      norm_num
    rw [hmax] at hch
    have hd : (0 : ℚ) < ((k + 1 : ℕ) : ℚ) * step :=
      mul_pos (by exact_mod_cast Nat.succ_pos k) hstep
    exact absurd hch.1.symm (ne_of_gt hd)
  rw [List.count_eq_zero.mpr h0]

lemma square_ring_ring_length (step : ℚ) (r : ℕ) (hr : 1 ≤ r) :
    (square_ring_ring step r).length = 8 * r := by
  unfold square_ring_ring intRange intRangeDown
  simp only [List.length_append, List.length_map, List.length_range]
  omega

lemma square_ring_count_TL (step : ℚ) (hstep : 0 < step) (r : ℕ) (hr : 1 ≤ r) :
    (square_ring_ring step r).count (-((r : ℚ) * step), -((r : ℚ) * step)) = 1 := by
  have hs : step ≠ 0 := ne_of_gt hstep
  have hr0 : 0 < r := by omega
  have hd : (0 : ℚ) < (r : ℚ) * step := mul_pos (by exact_mod_cast hr0) hstep
  unfold square_ring_ring
  rw [List.count_append, List.count_append, List.count_append]
  have hA : ((intRange (-(r : ℤ)) ((r : ℤ) + 1)).map
      (fun (x : ℤ) => ((x : ℚ) * step, -((r : ℚ) * step)))).count
        (-((r : ℚ) * step), -((r : ℚ) * step)) = 1 := by
    have hkey : (fun x : ℤ => ((x : ℚ) * step, -((r : ℚ) * step))) (-(r : ℤ))
        = (-((r : ℚ) * step), -((r : ℚ) * step)) := by
      rw [Prod.mk.injEq]
      exact ⟨by push_cast; ring, rfl⟩
    rw [← hkey]
    exact count_edge_one (inj_fst hs _) (nodup_intRange _ _)
      (show -(r : ℤ) ∈ intRange (-(r : ℤ)) ((r : ℤ) + 1) from mem_intRange.mpr (by omega))
  have hB : ((intRange (-(r : ℤ) + 1) ((r : ℤ) + 1)).map
      (fun (y : ℤ) => ((r : ℚ) * step, (y : ℚ) * step))).count
        (-((r : ℚ) * step), -((r : ℚ) * step)) = 0 := by
    apply count_edge_zero
    intro y hy heq
    rw [Prod.mk.injEq] at heq
    have := heq.1
    linarith
  have hC : ((intRangeDown ((r : ℤ) - 1) (-(r : ℤ) - 1)).map
      (fun (x : ℤ) => ((x : ℚ) * step, (r : ℚ) * step))).count
        (-((r : ℚ) * step), -((r : ℚ) * step)) = 0 := by
    apply count_edge_zero
    intro x hx heq
    rw [Prod.mk.injEq] at heq
    have := heq.2
    linarith
  have hD : ((intRangeDown ((r : ℤ) - 1) (-(r : ℤ))).map
      (fun (y : ℤ) => (-((r : ℚ) * step), (y : ℚ) * step))).count
        (-((r : ℚ) * step), -((r : ℚ) * step)) = 0 := by
    apply count_edge_zero
    intro y hy heq
    rw [Prod.mk.injEq] at heq
    have hy2 : (y : ℚ) * step = ((-(r : ℤ) : ℤ) : ℚ) * step := by push_cast; linarith [heq.2]
    have := mul_step_inj hs hy2
    rw [mem_intRangeDown] at hy
    omega
  omega

lemma square_ring_count_TR (step : ℚ) (hstep : 0 < step) (r : ℕ) (hr : 1 ≤ r) :
    (square_ring_ring step r).count ((r : ℚ) * step, -((r : ℚ) * step)) = 1 := by
  have hs : step ≠ 0 := ne_of_gt hstep
  have hr0 : 0 < r := by omega
  have hd : (0 : ℚ) < (r : ℚ) * step := mul_pos (by exact_mod_cast hr0) hstep
  unfold square_ring_ring
  rw [List.count_append, List.count_append, List.count_append]
  have hA : ((intRange (-(r : ℤ)) ((r : ℤ) + 1)).map
      (fun (x : ℤ) => ((x : ℚ) * step, -((r : ℚ) * step)))).count
        ((r : ℚ) * step, -((r : ℚ) * step)) = 1 := by
    have hkey : (fun x : ℤ => ((x : ℚ) * step, -((r : ℚ) * step))) ((r : ℤ))
        = ((r : ℚ) * step, -((r : ℚ) * step)) := by
      rw [Prod.mk.injEq]
      exact ⟨by push_cast; ring, rfl⟩
    rw [← hkey]
    exact count_edge_one (inj_fst hs _) (nodup_intRange _ _)
      (show (r : ℤ) ∈ intRange (-(r : ℤ)) ((r : ℤ) + 1) from mem_intRange.mpr (by omega))
  have hB : ((intRange (-(r : ℤ) + 1) ((r : ℤ) + 1)).map
      (fun (y : ℤ) => ((r : ℚ) * step, (y : ℚ) * step))).count
        ((r : ℚ) * step, -((r : ℚ) * step)) = 0 := by
    apply count_edge_zero
    intro y hy heq
    rw [Prod.mk.injEq] at heq
    have hy2 : (y : ℚ) * step = ((-(r : ℤ) : ℤ) : ℚ) * step := by push_cast; linarith [heq.2]
    have := mul_step_inj hs hy2
    rw [mem_intRange] at hy
    omega
  have hC : ((intRangeDown ((r : ℤ) - 1) (-(r : ℤ) - 1)).map
      (fun (x : ℤ) => ((x : ℚ) * step, (r : ℚ) * step))).count
        ((r : ℚ) * step, -((r : ℚ) * step)) = 0 := by
    apply count_edge_zero
    intro x hx heq
    rw [Prod.mk.injEq] at heq
    have := heq.2
    linarith
  have hD : ((intRangeDown ((r : ℤ) - 1) (-(r : ℤ))).map
      (fun (y : ℤ) => (-((r : ℚ) * step), (y : ℚ) * step))).count
        ((r : ℚ) * step, -((r : ℚ) * step)) = 0 := by
    apply count_edge_zero
    intro y hy heq
    rw [Prod.mk.injEq] at heq
    have := heq.1
    linarith
  omega

lemma square_ring_count_BR (step : ℚ) (hstep : 0 < step) (r : ℕ) (hr : 1 ≤ r) :
    (square_ring_ring step r).count ((r : ℚ) * step, (r : ℚ) * step) = 1 := by
  have hs : step ≠ 0 := ne_of_gt hstep
  have hr0 : 0 < r := by omega
  have hd : (0 : ℚ) < (r : ℚ) * step := mul_pos (by exact_mod_cast hr0) hstep
  unfold square_ring_ring
  rw [List.count_append, List.count_append, List.count_append]
  have hA : ((intRange (-(r : ℤ)) ((r : ℤ) + 1)).map
      (fun (x : ℤ) => ((x : ℚ) * step, -((r : ℚ) * step)))).count
        ((r : ℚ) * step, (r : ℚ) * step) = 0 := by
    apply count_edge_zero
    intro x hx heq
    rw [Prod.mk.injEq] at heq
    have := heq.2
    linarith
  have hB : ((intRange (-(r : ℤ) + 1) ((r : ℤ) + 1)).map
      (fun (y : ℤ) => ((r : ℚ) * step, (y : ℚ) * step))).count
        ((r : ℚ) * step, (r : ℚ) * step) = 1 := by
    have hkey : (fun y : ℤ => ((r : ℚ) * step, (y : ℚ) * step)) ((r : ℤ))
        = ((r : ℚ) * step, (r : ℚ) * step) := by
      rw [Prod.mk.injEq]
      exact ⟨rfl, by push_cast; ring⟩
    rw [← hkey]
    exact count_edge_one (inj_snd hs _) (nodup_intRange _ _)
      (show (r : ℤ) ∈ intRange (-(r : ℤ) + 1) ((r : ℤ) + 1) from mem_intRange.mpr (by omega))
  have hC : ((intRangeDown ((r : ℤ) - 1) (-(r : ℤ) - 1)).map
      (fun (x : ℤ) => ((x : ℚ) * step, (r : ℚ) * step))).count
        ((r : ℚ) * step, (r : ℚ) * step) = 0 := by
    apply count_edge_zero
    intro x hx heq
    rw [Prod.mk.injEq] at heq
    have hx2 : (x : ℚ) * step = (((r : ℤ) : ℤ) : ℚ) * step := by push_cast; linarith [heq.1]
    have := mul_step_inj hs hx2
    rw [mem_intRangeDown] at hx
    omega
  have hD : ((intRangeDown ((r : ℤ) - 1) (-(r : ℤ))).map
      (fun (y : ℤ) => (-((r : ℚ) * step), (y : ℚ) * step))).count
        ((r : ℚ) * step, (r : ℚ) * step) = 0 := by
    apply count_edge_zero
    intro y hy heq
    rw [Prod.mk.injEq] at heq
    have := heq.1
    linarith
  omega

lemma square_ring_count_BL (step : ℚ) (hstep : 0 < step) (r : ℕ) (hr : 1 ≤ r) :
    (square_ring_ring step r).count (-((r : ℚ) * step), (r : ℚ) * step) = 1 := by
  have hs : step ≠ 0 := ne_of_gt hstep
  have hr0 : 0 < r := by omega
  have hd : (0 : ℚ) < (r : ℚ) * step := mul_pos (by exact_mod_cast hr0) hstep
  unfold square_ring_ring
  rw [List.count_append, List.count_append, List.count_append]
  have hA : ((intRange (-(r : ℤ)) ((r : ℤ) + 1)).map
      (fun (x : ℤ) => ((x : ℚ) * step, -((r : ℚ) * step)))).count
        (-((r : ℚ) * step), (r : ℚ) * step) = 0 := by
    apply count_edge_zero
    intro x hx heq
    rw [Prod.mk.injEq] at heq
    have := heq.2
    linarith
  have hB : ((intRange (-(r : ℤ) + 1) ((r : ℤ) + 1)).map
      (fun (y : ℤ) => ((r : ℚ) * step, (y : ℚ) * step))).count
        (-((r : ℚ) * step), (r : ℚ) * step) = 0 := by
    apply count_edge_zero
    intro y hy heq
    rw [Prod.mk.injEq] at heq
    have := heq.1
    linarith
  have hC : ((intRangeDown ((r : ℤ) - 1) (-(r : ℤ) - 1)).map
      (fun (x : ℤ) => ((x : ℚ) * step, (r : ℚ) * step))).count
        (-((r : ℚ) * step), (r : ℚ) * step) = 1 := by
    have hkey : (fun x : ℤ => ((x : ℚ) * step, (r : ℚ) * step)) (-(r : ℤ))
        = (-((r : ℚ) * step), (r : ℚ) * step) := by
      rw [Prod.mk.injEq]
      exact ⟨by push_cast; ring, rfl⟩
    rw [← hkey]
    exact count_edge_one (inj_fst hs _) (nodup_intRangeDown _ _)
      (show -(r : ℤ) ∈ intRangeDown ((r : ℤ) - 1) (-(r : ℤ) - 1) from
        mem_intRangeDown.mpr (by omega))
  have hD : ((intRangeDown ((r : ℤ) - 1) (-(r : ℤ))).map
      (fun (y : ℤ) => (-((r : ℚ) * step), (y : ℚ) * step))).count
        (-((r : ℚ) * step), (r : ℚ) * step) = 0 := by
    apply count_edge_zero
    intro y hy heq
    rw [Prod.mk.injEq] at heq
    have hy2 : (y : ℚ) * step = (((r : ℤ) : ℤ) : ℚ) * step := by push_cast; linarith [heq.2]
    have := mul_step_inj hs hy2
    rw [mem_intRangeDown] at hy
    omega
  omega

/-- C4: for every positive step, the square-ring stream starts with exactly
one point (0,0) (its ring 0), ring r >= 1 emits exactly 8r points, and each
of the four corners of ring r (the points with both coordinate magnitudes
r*step) appears exactly once among them. -/
theorem square_ring_counts_and_corners (step : ℚ) (hstep : 0 < step) (r n : ℕ)
    (hr : 1 ≤ r) :
    (square_ring_points step n).count ((0 : ℚ), (0 : ℚ)) = 1 ∧
    (square_ring_ring step r).length = 8 * r ∧
    (square_ring_ring step r).count (-((r : ℚ) * step), -((r : ℚ) * step)) = 1 ∧
    (square_ring_ring step r).count ((r : ℚ) * step, -((r : ℚ) * step)) = 1 ∧
    (square_ring_ring step r).count ((r : ℚ) * step, (r : ℚ) * step) = 1 ∧
    (square_ring_ring step r).count (-((r : ℚ) * step), (r : ℚ) * step) = 1 :=
  ⟨square_ring_count_origin step hstep n, square_ring_ring_length step r hr,
    square_ring_count_TL step hstep r hr, square_ring_count_TR step hstep r hr,
    square_ring_count_BR step hstep r hr, square_ring_count_BL step hstep r hr⟩

/-- C4, witness: the counting theorem instantiated at step = 1, ring 1, one
unfolded ring. -/
theorem square_ring_counts_and_corners_witness :
    (square_ring_points 1 1).count ((0 : ℚ), (0 : ℚ)) = 1 ∧
    (square_ring_ring 1 1).length = 8 * 1 ∧
    (square_ring_ring 1 1).count (-((1 : ℚ) * 1), -((1 : ℚ) * 1)) = 1 ∧
    (square_ring_ring 1 1).count ((1 : ℚ) * 1, -((1 : ℚ) * 1)) = 1 ∧
    (square_ring_ring 1 1).count ((1 : ℚ) * 1, (1 : ℚ) * 1) = 1 ∧
    (square_ring_ring 1 1).count (-((1 : ℚ) * 1), (1 : ℚ) * 1) = 1 := by
  have h := square_ring_counts_and_corners 1 one_pos 1 1 (le_refl 1)
  push_cast at h
  exact h

/-- C10: for every positive step and ring r >= 1, every point the square-ring
generator emits for ring r lies exactly on the Chebyshev square of radius
r*step (max of the coordinate magnitudes equals r*step), with both
coordinates integer multiples of step. -/
theorem square_ring_chebyshev_invariant (step : ℚ) (hstep : 0 < step) (r : ℕ)
    (hr : 1 ≤ r) (p : ℚ × ℚ) (hp : p ∈ square_ring_ring step r) :
    max |p.1| |p.2| = (r : ℚ) * step ∧
      ∃ a b : ℤ, p.1 = (a : ℚ) * step ∧ p.2 = (b : ℚ) * step :=
  square_ring_mem hstep hr hp

/-- C10, witness: the invariant instantiated at step = 1, ring 1 and the
bottom-right corner point (1, 1). -/
theorem square_ring_chebyshev_invariant_witness :
    ((1 : ℚ), (1 : ℚ)) ∈ square_ring_ring 1 1 ∧
      (max |((1 : ℚ), (1 : ℚ)).1| |((1 : ℚ), (1 : ℚ)).2| = ((1 : ℕ) : ℚ) * 1 ∧
        ∃ a b : ℤ, ((1 : ℚ), (1 : ℚ)).1 = (a : ℚ) * 1 ∧
          ((1 : ℚ), (1 : ℚ)).2 = (b : ℚ) * 1) := by
  have hmem : ((1 : ℚ), (1 : ℚ)) ∈ square_ring_ring 1 1 := by
    norm_num [square_ring_ring, intRange, intRangeDown, List.range_succ]
  exact ⟨hmem, square_ring_chebyshev_invariant 1 one_pos 1 (le_refl 1) ((1 : ℚ), (1 : ℚ)) hmem⟩

lemma spiralSpecPos_succ (j : ℕ) :
    spiralSpecPos (j + 1)
      = ((spiralSpecPos j).1 + (spiralSpecDir j).1 * (spiralSpecLen j : ℤ),
         (spiralSpecPos j).2 + (spiralSpecDir j).2 * (spiralSpecLen j : ℤ)) := rfl

lemma spiralSpecLegs_succ (j m : ℕ) :
    spiralSpecLegs j (m + 1)
      = spiralLegPoints (spiralSpecPos j) (spiralSpecDir j) (spiralSpecLen j)
          ++ spiralSpecLegs (j + 1) m := rfl

lemma spiralSpecPos_mul4 : ∀ k : ℕ, spiralSpecPos (4 * k) = (-(k : ℤ), -(k : ℤ)) := by
  intro k
  induction k with
  | zero => rfl
  | succ k ih =>
      have d0 : spiralSpecDir (4 * k) = (1, 0) := by
        simp [spiralSpecDir, show (4 * k) % 4 = 0 from by omega]
      have d1 : spiralSpecDir (4 * k + 1) = (0, 1) := by
        simp [spiralSpecDir, show (4 * k + 1) % 4 = 1 from by omega]
      have d2 : spiralSpecDir (4 * k + 2) = (-1, 0) := by
        simp [spiralSpecDir, show (4 * k + 2) % 4 = 2 from by omega]
      have d3 : spiralSpecDir (4 * k + 3) = (0, -1) := by
        simp [spiralSpecDir, show (4 * k + 3) % 4 = 3 from by omega]
      have l0 : spiralSpecLen (4 * k) = 2 * k + 1 := by unfold spiralSpecLen; omega
      have l1 : spiralSpecLen (4 * k + 1) = 2 * k + 1 := by unfold spiralSpecLen; omega
      have l2 : spiralSpecLen (4 * k + 2) = 2 * k + 2 := by unfold spiralSpecLen; omega
      have l3 : spiralSpecLen (4 * k + 3) = 2 * k + 2 := by unfold spiralSpecLen; omega
      rw [show 4 * (k + 1) = 4 * k + 3 + 1 from by ring, spiralSpecPos_succ,
        show 4 * k + 3 = 4 * k + 2 + 1 from by omega, spiralSpecPos_succ,
        show 4 * k + 2 = 4 * k + 1 + 1 from by omega, spiralSpecPos_succ,
        spiralSpecPos_succ, ih, d0, d1, d2, d3, l0, l1, l2, l3, Prod.mk.injEq]
      constructor <;> push_cast <;> ring

lemma spiral_rounds_eq_spec : ∀ m k : ℕ,
    spiral_rounds (-(k : ℤ)) (-(k : ℤ)) (2 * k + 1) m = spiralSpecLegs (4 * k) (4 * m) := by
  intro m
  induction m with
  | zero => intro k; rfl
  | succ m ih =>
      intro k
      have d0 : spiralSpecDir (4 * k) = (1, 0) := by
        simp [spiralSpecDir, show (4 * k) % 4 = 0 from by omega]
      have d1 : spiralSpecDir (4 * k + 1) = (0, 1) := by
        simp [spiralSpecDir, show (4 * k + 1) % 4 = 1 from by omega]
      have d2 : spiralSpecDir (4 * k + 2) = (-1, 0) := by
        simp [spiralSpecDir, show (4 * k + 2) % 4 = 2 from by omega]
      have d3 : spiralSpecDir (4 * k + 3) = (0, -1) := by
        simp [spiralSpecDir, show (4 * k + 3) % 4 = 3 from by omega]
      have l0 : spiralSpecLen (4 * k) = 2 * k + 1 := by unfold spiralSpecLen; omega
      have l1 : spiralSpecLen (4 * k + 1) = 2 * k + 1 := by unfold spiralSpecLen; omega
      have l2 : spiralSpecLen (4 * k + 2) = 2 * k + 2 := by unfold spiralSpecLen; omega
      have l3 : spiralSpecLen (4 * k + 3) = 2 * k + 2 := by unfold spiralSpecLen; omega
      have p0 : spiralSpecPos (4 * k) = (-(k : ℤ), -(k : ℤ)) := spiralSpecPos_mul4 k
      have p1 : spiralSpecPos (4 * k + 1) = ((k : ℤ) + 1, -(k : ℤ)) := by
        rw [spiralSpecPos_succ, p0, d0, l0, Prod.mk.injEq]
        constructor <;> push_cast <;> ring
      have p2 : spiralSpecPos (4 * k + 2) = ((k : ℤ) + 1, (k : ℤ) + 1) := by
        rw [show 4 * k + 2 = 4 * k + 1 + 1 from by omega, spiralSpecPos_succ, p1, d1, l1,
          Prod.mk.injEq]
        constructor <;> push_cast <;> ring
      have p3 : spiralSpecPos (4 * k + 3) = (-(k : ℤ) - 1, (k : ℤ) + 1) := by
        rw [show 4 * k + 3 = 4 * k + 2 + 1 from by omega, spiralSpecPos_succ, p2, d2, l2,
          Prod.mk.injEq]
        constructor <;> push_cast <;> ring
      rw [show 4 * (m + 1) = 4 * m + 1 + 1 + 1 + 1 from by ring, spiralSpecLegs_succ,
        spiralSpecLegs_succ, spiralSpecLegs_succ, spiralSpecLegs_succ,
        show 4 * k + 1 + 1 = 4 * k + 2 from by omega,
        show 4 * k + 2 + 1 = 4 * k + 3 from by omega,
        show 4 * k + 3 + 1 = 4 * (k + 1) from by omega,
        d0, d1, d2, d3, l0, l1, l2, l3, p0, p1, p2, p3]
      simp only [spiral_rounds]
      rw [show -(k : ℤ) + ((2 * k + 1 : ℕ) : ℤ) = (k : ℤ) + 1 from by push_cast; ring,
        show (k : ℤ) + 1 - (((2 * k + 1 : ℕ) : ℤ) + 1) = -(k : ℤ) - 1 from by push_cast; ring,
        show (2 : ℕ) * k + 1 + 1 = 2 * k + 2 from by omega,
        show (2 : ℕ) * k + 1 + 2 = 2 * (k + 1) + 1 from by omega,
        show -(k : ℤ) - 1 = -((k + 1 : ℕ) : ℤ) from by push_cast; ring, ih (k + 1)]
      simp [List.append_assoc]

/-- C5: the spiral generator emits exactly the claimed lattice path scaled by
step: every finite unfolding of the source loop equals the corresponding legs
of the right/up/left/down walk whose leg length increases every two legs, and
that walk starts (0,0),(1,0),(1,1),(0,1),(-1,1),(-1,0),(-1,-1),(0,-1),(1,-1),
(2,-1),... -/
theorem spiral_matches_lattice_path (step : ℚ) (k : ℕ) :
    spiral_points step k
      = (spiralSpecPath (4 * k)).map (fun (p : ℤ × ℤ) => ((p.1 : ℚ) * step, (p.2 : ℚ) * step)) ∧
    (spiralSpecPath 6).take 10
      = [(0, 0), (1, 0), (1, 1), (0, 1), (-1, 1), (-1, 0), (-1, -1), (0, -1), (1, -1), (2, -1)] := by
  constructor
  · have h := spiral_rounds_eq_spec k 0
    norm_num at h
    unfold spiral_points spiralSpecPath
    rw [h]
  · decide

lemma round3_err (x : ℝ) : |round3 x - x| ≤ 1 / 2000 := by
  unfold round3
  rw [show ((round (x * 1000) : ℤ) : ℝ) / 1000 - x
      = (((round (x * 1000) : ℤ) : ℝ) - x * 1000) / 1000 from by ring,
    abs_div, abs_of_pos (by norm_num : (0 : ℝ) < (1000 : ℝ))]
  have h2 : |((round (x * 1000) : ℤ) : ℝ) - x * 1000| ≤ 1 / 2 := by
    rw [abs_sub_comm]
    exact abs_sub_round (x * 1000)
  have h3 : |((round (x * 1000) : ℤ) : ℝ) - x * 1000| / 1000 ≤ (1 / 2) / 1000 :=
    (div_le_div_iff_of_pos_right (by norm_num)).mpr h2
  have h4 : ((1 : ℝ) / 2) / 1000 = 1 / 2000 := by norm_num
  linarith

/-- C6: for every positive step and ring r >= 1, the circle-ring generator
emits exactly max(8r, 8) points for ring r (the stream opens with the single
ring-0 point (0,0)), and each emitted point is within the 3-decimal rounding
tolerance (at most 1/2000 per coordinate) of a point at exact Euclidean
distance r*step from the origin. -/
theorem circle_ring_samples_and_radius (step : ℝ) (hstep : 0 < step) (r : ℕ)
    (hr : 1 ≤ r) :
    (circle_ring_ring step r).length = max (8 * r) 8 ∧
    (∀ p ∈ circle_ring_ring step r, ∃ q : ℝ × ℝ,
      Real.sqrt (q.1 ^ 2 + q.2 ^ 2) = (r : ℝ) * step ∧
      |p.1 - q.1| ≤ 1 / 2000 ∧ |p.2 - q.2| ≤ 1 / 2000) ∧
    (∀ n : ℕ, (circle_ring_points step n).head? = some ((0 : ℝ), (0 : ℝ))) := by
  refine ⟨?_, ?_, fun n => rfl⟩
  · unfold circle_ring_ring
    rw [List.length_map, List.length_range]
  · intro p hp
    unfold circle_ring_ring at hp
    rw [List.mem_map] at hp
    obtain ⟨i, hi, rfl⟩ := hp
    dsimp only
    refine ⟨((r : ℝ) * step * Real.cos ((2 * Real.pi * (i : ℝ)) / ((max (8 * r) 8 : ℕ) : ℝ)),
      (r : ℝ) * step * Real.sin ((2 * Real.pi * (i : ℝ)) / ((max (8 * r) 8 : ℕ) : ℝ))),
      ?_, round3_err _, round3_err _⟩
    have hnn : (0 : ℝ) ≤ (r : ℝ) * step := mul_nonneg (Nat.cast_nonneg r) hstep.le
    rw [show ((r : ℝ) * step * Real.cos ((2 * Real.pi * (i : ℝ)) / ((max (8 * r) 8 : ℕ) : ℝ))) ^ 2
          + ((r : ℝ) * step * Real.sin ((2 * Real.pi * (i : ℝ)) / ((max (8 * r) 8 : ℕ) : ℝ))) ^ 2
        = ((r : ℝ) * step) ^ 2
          * (Real.cos ((2 * Real.pi * (i : ℝ)) / ((max (8 * r) 8 : ℕ) : ℝ)) ^ 2
            + Real.sin ((2 * Real.pi * (i : ℝ)) / ((max (8 * r) 8 : ℕ) : ℝ)) ^ 2)
        from by ring,
      Real.cos_sq_add_sin_sq, mul_one, Real.sqrt_sq hnn]

/-- C6, witness: the circle-ring theorem instantiated at step = 1, ring 1. -/
theorem circle_ring_samples_and_radius_witness :
    (0 : ℝ) < 1 ∧ (1 : ℕ) ≤ 1 ∧
      ((circle_ring_ring 1 1).length = max (8 * 1) 8 ∧
        (∀ p ∈ circle_ring_ring 1 1, ∃ q : ℝ × ℝ,
          Real.sqrt (q.1 ^ 2 + q.2 ^ 2) = ((1 : ℕ) : ℝ) * 1 ∧
          |p.1 - q.1| ≤ 1 / 2000 ∧ |p.2 - q.2| ≤ 1 / 2000) ∧
        (∀ n : ℕ, (circle_ring_points 1 n).head? = some ((0 : ℝ), (0 : ℝ)))) :=
  ⟨one_pos, le_refl 1, circle_ring_samples_and_radius 1 one_pos 1 (le_refl 1)⟩

lemma hexCharVal_lt {c : Char} {v : ℕ} (h : hexCharVal c = some v) : v < 16 := by
  unfold hexCharVal at h
  split_ifs at h <;> simp_all <;> omega

lemma hexVal_two {c0 c1 : Char} {v : ℕ} (h : hexVal [c0, c1] = some v) :
    ∃ v0 v1, hexCharVal c0 = some v0 ∧ hexCharVal c1 = some v1 ∧ v = 16 * v0 + v1 := by
  cases h0 : hexCharVal c0 with
  | none => simp [hexVal, List.foldlM, h0] at h
  | some v0 =>
      cases h1 : hexCharVal c1 with
      | none => simp [hexVal, List.foldlM, h0, h1] at h
      | some v1 =>
          simp [hexVal, List.foldlM, h0, h1] at h
          exact ⟨v0, v1, rfl, rfl, by omega⟩

lemma hexVal_le2_lt256 {l : List Char} (hl : l.length ≤ 2) {v : ℕ}
    (h : hexVal l = some v) : v < 256 := by
  rcases l with _ | ⟨c0, _ | ⟨c1, _ | ⟨c2, t⟩⟩⟩
  · simp [hexVal] at h
  · cases h0 : hexCharVal c0 with
    | none => simp [hexVal, List.foldlM, h0] at h
    | some v0 =>
        have hv0 := hexCharVal_lt h0
        simp [hexVal, List.foldlM, h0] at h
        omega
  · obtain ⟨v0, v1, h0, h1, rfl⟩ := hexVal_two h
    have hv0 := hexCharVal_lt h0
    have hv1 := hexCharVal_lt h1
    omega
  · simp only [List.length_cons] at hl
    omega

lemma parseChannels_some {s : List Char} {r g b : ℕ}
    (h : parseChannels s = some (r, g, b)) :
    hexVal (s.take 2) = some r ∧ hexVal ((s.drop 2).take 2) = some g ∧
      hexVal ((s.drop 4).take 2) = some b := by
  cases h0 : hexVal (s.take 2) with
  | none => simp [parseChannels, h0] at h
  | some r0 =>
      cases h1 : hexVal ((s.drop 2).take 2) with
      | none => simp [parseChannels, h0, h1] at h
      | some g0 =>
          cases h2 : hexVal ((s.drop 4).take 2) with
          | none => simp [parseChannels, h0, h1, h2] at h
          | some b0 =>
              simp [parseChannels, h0, h1, h2] at h
              obtain ⟨rfl, rfl, rfl⟩ := h
              exact ⟨rfl, rfl, rfl⟩

lemma parseChannels_lt256 {s : List Char} {r g b : ℕ}
    (h : parseChannels s = some (r, g, b)) : r < 256 ∧ g < 256 ∧ b < 256 := by
  obtain ⟨h0, h1, h2⟩ := parseChannels_some h
  have ht : ∀ l : List Char, (l.take 2).length ≤ 2 := by
    intro l
    rw [List.length_take]
    omega
  exact ⟨hexVal_le2_lt256 (ht s) h0, hexVal_le2_lt256 (ht _) h1, hexVal_le2_lt256 (ht _) h2⟩

lemma darkChannel_le (c : ℕ) : darkChannel c (72 / 100) ≤ c := by
  unfold darkChannel pyInt
  have hq : (0 : ℚ) ≤ (c : ℚ) * (72 / 100) := by positivity
  rw [if_neg (not_lt.mpr hq)]
  have h1 : (0 : ℤ) ≤ ⌊(c : ℚ) * (72 / 100)⌋ := Int.floor_nonneg.mpr hq
  have h2 : ⌊(c : ℚ) * (72 / 100)⌋ ≤ (c : ℤ) := by
    have hle : (c : ℚ) * (72 / 100) ≤ (c : ℚ) := by
      nlinarith [Nat.cast_nonneg (α := ℚ) c]
    calc ⌊(c : ℚ) * (72 / 100)⌋ ≤ ⌊(c : ℚ)⌋ := Int.floor_le_floor hle
      _ = (c : ℤ) := Int.floor_natCast c
  omega

lemma darkChannel_lt256 (c : ℕ) (f : ℚ) : darkChannel c f < 256 := by
  unfold darkChannel
  omega

lemma darken_hex_eq {s : String} {r g b : ℕ}
    (h : parseChannels (s.data.dropWhile (fun c => c = '#')) = some (r, g, b)) (f : ℚ) :
    darken_hex s f = some (darkenedColor r g b f) := by
  unfold darken_hex
  rw [h]

lemma parse_darkenedColor (r g b : ℕ) (f : ℚ) :
    parseChannels ((darkenedColor r g b f).data.dropWhile (fun c => c = '#'))
      = some (darkChannel r f, darkChannel g f, darkChannel b f) := by
  unfold darkenedColor
  rw [dropWhile_hash_mk]
  exact parseChannels_bytes (darkChannel_lt256 r f) (darkChannel_lt256 g f)
    (darkChannel_lt256 b f)

/-- C7: for every well-formed 6-hex-digit color string, darkening with factor
0.72 succeeds and each channel of the result is at most the corresponding
original channel (multiply by 0.72, truncate, clamp to [0, 255]); darkening a
second time is again channel-wise non-increasing, so no channel ever
increases at either application. -/
theorem darken_channelwise_monotone (s : String) (r g b : ℕ)
    (hlen : ((s.data).dropWhile (fun c => c = '#')).length = 6)
    (hparse : parseChannels ((s.data).dropWhile (fun c => c = '#')) = some (r, g, b)) :
    ∃ t : String, darken_hex s (72 / 100) = some t ∧
      parseChannels ((t.data).dropWhile (fun c => c = '#'))
        = some (darkChannel r (72 / 100), darkChannel g (72 / 100),
            darkChannel b (72 / 100)) ∧
      darkChannel r (72 / 100) ≤ r ∧ darkChannel g (72 / 100) ≤ g ∧
      darkChannel b (72 / 100) ≤ b ∧
      ∃ u : String, darken_hex t (72 / 100) = some u ∧
        parseChannels ((u.data).dropWhile (fun c => c = '#'))
          = some (darkChannel (darkChannel r (72 / 100)) (72 / 100),
              darkChannel (darkChannel g (72 / 100)) (72 / 100),
              darkChannel (darkChannel b (72 / 100)) (72 / 100)) ∧
        darkChannel (darkChannel r (72 / 100)) (72 / 100) ≤ darkChannel r (72 / 100) ∧
        darkChannel (darkChannel g (72 / 100)) (72 / 100) ≤ darkChannel g (72 / 100) ∧
        darkChannel (darkChannel b (72 / 100)) (72 / 100) ≤ darkChannel b (72 / 100) :=
  ⟨darkenedColor r g b (72 / 100), darken_hex_eq hparse _, parse_darkenedColor r g b _,
    darkChannel_le r, darkChannel_le g, darkChannel_le b,
    darkenedColor (darkChannel r (72 / 100)) (darkChannel g (72 / 100))
      (darkChannel b (72 / 100)) (72 / 100),
    darken_hex_eq (parse_darkenedColor r g b _) _, parse_darkenedColor _ _ _ _,
    darkChannel_le _, darkChannel_le _, darkChannel_le _⟩

/-- C7, witness: the darkening theorem instantiated at the well-formed color
string "#4080c0", whose channels parse to (64, 128, 192). -/
theorem darken_channelwise_monotone_witness :
    ((("#4080c0".data).dropWhile (fun c => c = '#')).length = 6 ∧
      parseChannels (("#4080c0".data).dropWhile (fun c => c = '#')) = some (64, 128, 192)) ∧
    ∃ t : String, darken_hex "#4080c0" (72 / 100) = some t ∧
      parseChannels ((t.data).dropWhile (fun c => c = '#'))
        = some (darkChannel 64 (72 / 100), darkChannel 128 (72 / 100),
            darkChannel 192 (72 / 100)) ∧
      darkChannel 64 (72 / 100) ≤ 64 ∧ darkChannel 128 (72 / 100) ≤ 128 ∧
      darkChannel 192 (72 / 100) ≤ 192 ∧
      ∃ u : String, darken_hex t (72 / 100) = some u ∧
        parseChannels ((u.data).dropWhile (fun c => c = '#'))
          = some (darkChannel (darkChannel 64 (72 / 100)) (72 / 100),
              darkChannel (darkChannel 128 (72 / 100)) (72 / 100),
              darkChannel (darkChannel 192 (72 / 100)) (72 / 100)) ∧
        darkChannel (darkChannel 64 (72 / 100)) (72 / 100) ≤ darkChannel 64 (72 / 100) ∧
        darkChannel (darkChannel 128 (72 / 100)) (72 / 100) ≤ darkChannel 128 (72 / 100) ∧
        darkChannel (darkChannel 192 (72 / 100)) (72 / 100) ≤ darkChannel 192 (72 / 100) :=
  ⟨⟨by decide, by decide⟩,
    darken_channelwise_monotone "#4080c0" 64 128 192 (by decide) (by decide)⟩

/-- C3, witness: the amended end-to-end snake theorem instantiated at the
all-zeros draw stream. -/
theorem snake_end_to_end_witness :
    ∃ objs, main cfgC3 ptsC3 draw0 = Except.ok objs ∧
      objs.map (fun o => (o.x, o.y))
        = [((0 : ℚ), (0 : ℚ)), (10, 0), (10, 20), (0, 20), (0, 40)] ∧
      objs.map (fun o => o.z_index) = [0, 1, 2, 3, 4] ∧
      objs.map (fun o => o.kind)
        = ["rectangle", "ellipse", "rectangle", "ellipse", "rectangle"] :=
  snake_end_to_end draw0

/-- C5, witness: the spiral correspondence instantiated at step = 1 and two
unfolded loop iterations. -/
theorem spiral_matches_lattice_path_witness :
    spiral_points 1 2
      = (spiralSpecPath (4 * 2)).map (fun (p : ℤ × ℤ) => ((p.1 : ℚ) * 1, (p.2 : ℚ) * 1)) ∧
    (spiralSpecPath 6).take 10
      = [(0, 0), (1, 0), (1, 1), (0, 1), (-1, 1), (-1, 0), (-1, -1), (0, -1), (1, -1), (2, -1)] :=
  spiral_matches_lattice_path 1 2

end StressJsonl
